import Mathlib

/-!
Verification of the MetaICL model wrapper (src/MetaICL/metaicl/model.py).

Shallow embedding conventions:
  * Tensor rows are lists; a batched tensor is a list of rows (rectangularity
    of real tensors is carried as explicit shape hypotheses where needed).
  * A scalar float is modelled as an element of RVal, an Option over the
    rationals in which the value none stands for IEEE NaN.  The arithmetic on
    RVal propagates none exactly as IEEE arithmetic propagates NaN; division
    by zero yields none (in the program every division by zero has a zero
    numerator, the IEEE 0/0 = NaN case, so infinities never arise and are not
    modelled).
  * The language model forward pass (an external, opaque collaborator per the
    spec) is a parameter modelF sending input ids and an attention mask to a
    list of per-position logit rows for each example.  The per-position
    cross-entropy kernel of torch.nn.CrossEntropyLoss (a logit row together
    with a target class id to a finite real) is a parameter ce, and np.exp is
    a parameter expF: these are external numeric primitives; everything the
    claims speak about (shifting, masking, normalization, softmax shape,
    aggregation, selection, the training control flow) is embedded
    structurally from the Python source.
-/

namespace MetaICL

/-- RVal models a float scalar: some q is the finite value q, none is NaN. -/
abbrev RVal := Option ℚ

/-- Addition on RVal; NaN propagates as in IEEE arithmetic. -/
def radd : RVal → RVal → RVal
  | some a, some b => some (a + b)
  | _, _ => none

/-- Negation on RVal; NaN propagates. -/
def rneg : RVal → RVal
  | some a => some (-a)
  | none => none

/-- Sum of a list of RVal, as np.sum or the python builtin sum: the empty sum
is the finite value 0 and any NaN term makes the whole sum NaN. -/
def rsum (l : List RVal) : RVal := l.foldr radd (some 0)

/-- Division on RVal.  A NaN operand gives NaN; division by zero gives NaN.
In the embedded program the denominator is zero only when the numerator is
also zero (the IEEE 0/0 = NaN case), so the infinite quotients of IEEE
arithmetic never occur and none faithfully covers every division-by-zero the
program can perform. -/
def rdiv : RVal → RVal → RVal
  | some a, some b => if b = 0 then none else some (a / b)
  | _, _ => none

/-- Application of an external finite real function (such as np.exp) to an
RVal; NaN propagates. -/
def rlift (f : ℚ → ℚ) : RVal → RVal
  | some a => some (f a)
  | none => none

/-- Strict comparison on RVal, as the python float less-than: any comparison
with NaN is false. -/
def rlt : RVal → RVal → Bool
  | some a, some b => a < b
  | _, _ => false

/-- Batch tuple produced by the external data provider: input token ids, an
attention mask, token type ids doubling as the label mask, and optional
labels.  Mask entries are natural numbers (the program multiplies losses by
them and divides by their sum). -/
structure Batch where
  input_ids : List (List ℕ)
  attention_mask : List (List ℕ)
  token_type_ids : List (List ℕ)
  labels : Option (List (List ℕ)) := none
deriving Repr, DecidableEq

/-- Model forward pass signature: input ids and attention mask to, for each
example, a list of per-position logit rows over the vocabulary. -/
abbrev ModelF := List (List ℕ) → List (List ℕ) → List (List (List ℚ))

/-- Cross-entropy kernel signature: one logit row and one target class id to
a finite per-token loss. -/
abbrev CeF := List ℚ → ℕ → ℚ

/-- Embedding of MetaICLModel.run_model (model.py lines 304-322).
Steps, in source order: run the forward pass; drop the last logit position of
each example; default labels to input_ids and drop their first position; drop
the first position of the label mask; compute per-token cross-entropy with no
reduction (the flatten/unflatten through view is the identity on the
per-example rows of a rectangular tensor, so it is embedded as a per-example
zipWith); multiply elementwise by the shifted label mask; and return, per
example, the masked sum divided by the mask sum. -/
def run_model (modelF : ModelF) (ce : CeF)
    (input_ids attention_mask token_type_ids : List (List ℕ))
    (labels : Option (List (List ℕ))) : List RVal :=
  let logits := (modelF input_ids attention_mask).map List.dropLast
  let labs := ((labels.getD input_ids).map (List.drop 1))
  let label_mask := token_type_ids.map (List.drop 1)
  let losses := List.zipWith (fun lrow trow => List.zipWith ce lrow trow) logits labs
  let masked := List.zipWith
    (fun lrow mrow => List.zipWith (fun (l : ℚ) (m : ℕ) => l * (m : ℚ)) lrow mrow) losses label_mask
  List.zipWith
    (fun srow mrow =>
      rdiv (some srow.sum) (some ((mrow.map (fun (m : ℕ) => (m : ℚ))).sum)))
    masked label_mask

/-- Per-example masked loss sum of the spec formula: cross-entropy between
the logit rows with the last position dropped and the targets with the first
position dropped, multiplied elementwise by the shifted label mask, summed. -/
def maskedLossSum (ce : CeF) (logitsRow : List (List ℚ)) (labRow maskRow : List ℕ) : ℚ :=
  (List.zipWith (fun (l : ℚ) (m : ℕ) => l * (m : ℚ))
    (List.zipWith ce logitsRow.dropLast (labRow.drop 1)) (maskRow.drop 1)).sum

/-- Per-example Scorer entry as the claim words it: the masked loss sum
divided by the COUNT of masked (nonzero label-mask) tokens of the example. -/
def scorerCountEntry (ce : CeF) (logitsRow : List (List ℚ)) (labRow maskRow : List ℕ) : RVal :=
  rdiv (some (maskedLossSum ce logitsRow labRow maskRow))
    (some (((maskRow.drop 1).countP (fun m => m ≠ 0) : ℕ) : ℚ))

/-- Per-example Scorer entry amended to match the source: the masked loss sum
divided by the SUM of the shifted label-mask values (equal to the count of
masked tokens exactly when the mask is 0/1 valued). -/
def scorerSumEntry (ce : CeF) (logitsRow : List (List ℚ)) (labRow maskRow : List ℕ) : RVal :=
  rdiv (some (maskedLossSum ce logitsRow labRow maskRow))
    (some (((maskRow.drop 1).map (fun (m : ℕ) => (m : ℚ))).sum))

/-- Embedding of MetaICLModel.do_inference (model.py lines 241-269).  The
external dataloader is already materialized as the list of its batches in
iteration order; per-batch Scorer outputs are appended to one flat list.
With do_probs set, losses becomes softmax of the negated array computed with
one global normalizing sum, exactly as the inner numpy softmax does. -/
def do_inference (modelF : ModelF) (ce : CeF) (expF : ℚ → ℚ)
    (batches : List Batch) (do_probs : Bool) : List RVal :=
  let losses := (batches.map (fun b =>
    run_model modelF ce b.input_ids b.attention_mask b.token_type_ids b.labels)).flatten
  if do_probs then
    let exps := (losses.map rneg).map (rlift expF)
    exps.map (fun e => rdiv e (rsum exps))
  else
    losses

/-- Global softmax, written from the words of the spec: every entry of the
array is exponentiated and divided by the one normalizing sum taken over the
ENTIRE array (not per example). -/
def globalSoftmax (expF : ℚ → ℚ) (xs : List RVal) : List RVal :=
  xs.map (fun x => rdiv (rlift expF x) (rsum (xs.map (rlift expF))))

/-- Python strings are modelled as lists of characters (the Lean String
byte-position functions do not reduce in the kernel, lists of Char do). -/
abbrev PyStr := List Char

/-- Python whitespace test of str.strip with no argument. -/
def pyIsSpace (c : Char) : Bool :=
  c = ' ' || c = '\t' || c = '\n' || c = '\x0b' || c = '\x0c' || c = '\r'

/-- Python str.strip with no argument: leading and trailing whitespace
removed. -/
def pyStrip (s : PyStr) : PyStr :=
  ((s.dropWhile pyIsSpace).reverse.dropWhile pyIsSpace).reverse

/-- Per-example metadata record of the external data provider: the candidate
option strings and, for each option, the index set into the flat loss array. -/
structure DP where
  options : List PyStr
  indices : List (List ℕ)
deriving Repr, DecidableEq

/-- Prediction appended by do_predict: either a bare stripped option string
or a stripped option string paired with its aggregated score. -/
inductive Pred where
  | bare (s : PyStr)
  | withScore (s : PyStr) (v : RVal)
deriving Repr, DecidableEq

/-- Stable insertion of a LATER element into an already sorted list: the new
element is placed before the first element it compares strictly below, hence
after every element it ties with, which is the tie behavior of a stable sort
on elements arriving later. -/
def insertLater (lt : α → α → Bool) (x : α) : List α → List α
  | [] => [x]
  | y :: ys => if lt x y then x :: y :: ys else y :: insertLater lt x ys

/-- Stable sort by a strict Bool comparison, as the python builtin sorted: a
left fold inserting each element after its ties.  On keys whose comparisons
are consistent (no NaN key) this agrees with any stable sort and so with the
Timsort of the source; python leaves the order with NaN keys unspecified and
this embedding then still returns some deterministic order. -/
def pySorted (lt : α → α → Bool) (l : List α) : List α :=
  l.foldl (fun acc x => insertLater lt x acc) []

/-- Enumeration of a list starting at a given index, as the python builtin
enumerate when the offset is 0. -/
def enumFrom : ℕ → List α → List (ℕ × α)
  | _, [] => []
  | n, x :: xs => (n, x) :: enumFrom (n + 1) xs

/-- Aggregated loss of one candidate option (model.py line 279): the numpy
fancy-indexed sum of losses over the index set of the option.  An index out
of the bounds of the loss array raises in numpy, embedded as none. -/
def aggregate (losses : List RVal) (indices : List ℕ) : Option RVal :=
  if indices.all (fun i => i < losses.length) then
    some (rsum (indices.map (fun i => losses.getD i none)))
  else
    none

/-- Comparison of enumerated pairs by their score component, the key function
of the sorted calls in do_predict. -/
def ltBySnd (x y : ℕ × RVal) : Bool := rlt x.2 y.2

/-- Reversed comparison of enumerated pairs by score, modelling sorted with
reverse set: every comparison is reversed while ties keep original order. -/
def gtBySnd (x y : ℕ × RVal) : Bool := rlt y.2 x.2

/-- Loop body of do_predict for one metadata record (model.py lines 277-298),
with python list indexing and sorted-of-empty failures embedded as none.
Note the source tests label_id with a plain if and require_loss with a
separate if/else, so a call with label_id set and require_loss unset appends
two predictions for the one example. -/
def predictOne (label_id : Option ℕ) (require_loss do_probs : Bool)
    (losses : List RVal) (dp : DP) : Option (List Pred) := do
  let curr_label_losses ← dp.indices.mapM (aggregate losses)
  let part1 ← match label_id with
    | some lid => do
        let prediction ← dp.options.get? lid
        let negative_pred_prob ← curr_label_losses.get? lid
        pure [Pred.withScore (pyStrip prediction) negative_pred_prob]
    | none => pure []
  if !require_loss then
    let hd ← (pySorted ltBySnd (enumFrom 0 curr_label_losses)).head?
    let prediction ← dp.options.get? hd.1
    pure (part1 ++ [Pred.bare (pyStrip prediction)])
  else
    let lt := if do_probs then gtBySnd else ltBySnd
    let prediction_terms ← (pySorted lt (enumFrom 0 curr_label_losses)).head?
    let prediction ← dp.options.get? prediction_terms.1
    pure (part1 ++ [Pred.withScore (pyStrip prediction) prediction_terms.2])

/-- Embedding of MetaICLModel.do_predict (model.py lines 271-300).  The
losses0 argument models the losses keyword parameter of the source, which is
unconditionally overwritten by a fresh do_inference call before any use; the
assert comparing the recomputed array length with the data length is
embedded as returning none on failure, as is any indexing crash inside the
per-example loop. -/
def do_predict (modelF : ModelF) (ce : CeF) (expF : ℚ → ℚ)
    (batches : List Batch) (metadata : List DP) (dataLen : ℕ)
    (losses0 : Option (List RVal)) (require_loss : Bool) (label_id : Option ℕ)
    (do_probs : Bool) : Option (List Pred) := do
  let losses := do_inference modelF ce expF batches do_probs
  if losses.length = dataLen then
    let preds ← metadata.mapM (predictOne label_id require_loss do_probs losses)
    pure preds.flatten
  else
    none

/-- Observable events of one do_train run, tagged with the global step at
which they happen.  Numeric contents of the model, optimizer, scheduler and
gradients are external collaborators; the claims about do_train concern
which of these operations happen at which step, so the embedding records the
event trace. -/
inductive TrainEvent where
  | processBatch (step : ℕ)
  | nanAbort (step : ℕ)
  | clipGrad (step : ℕ)
  | optimizerStep (step : ℕ)
  | schedulerStep (step : ℕ)
  | zeroGrad (step : ℕ)
  | logLoss (step : ℕ)
  | saveCkpt (step : ℕ)
deriving Repr, DecidableEq

/-- Static configuration of a do_train run: the target number of training
steps, the gradient accumulation cadence, the log and save periods, whether
a scheduler was configured by setup_optimizer, and the number of batches the
training dataloader yields per epoch. -/
structure TrainConfig where
  numSteps : ℕ
  gradAccum : ℕ
  logPeriod : ℕ
  savePeriod : ℕ
  hasScheduler : Bool
  numBatches : ℕ
deriving Repr, DecidableEq

/-- Events emitted by one non-NaN iteration of the inner batch loop at a
given global step, in source order: the batch is processed (loss recorded
and backward run), then the accumulation block fires when the step is a
multiple of gradient_accumulation_steps (clip, optimizer step, scheduler
step when configured, zero grad), then logging and checkpointing on their
periods. -/
def stepEvents (cfg : TrainConfig) (g : ℕ) : List TrainEvent :=
  [TrainEvent.processBatch g]
    ++ (if g % cfg.gradAccum = 0 then
          [TrainEvent.clipGrad g, TrainEvent.optimizerStep g]
            ++ (if cfg.hasScheduler then [TrainEvent.schedulerStep g] else [])
            ++ [TrainEvent.zeroGrad g]
        else [])
    ++ (if g % cfg.logPeriod = 0 then [TrainEvent.logLoss g] else [])
    ++ (if g % cfg.savePeriod = 0 then [TrainEvent.saveCkpt g] else [])

/-- Inner batch loop of do_train (model.py lines 191-234) over the remaining
batches of the current epoch.  lossOf gives the mean Scorer loss observed at
each global step (the model weights evolve, so the loss is an arbitrary
function of the step); none is a NaN loss.  Arguments: remaining batch
count, current global step, events so far.  Returns the new global step, the
event trace, and whether the step target was hit (the only condition the
source ever breaks the OUTER loop on: the stop_training flag set on NaN is
never read again). -/
def innerLoop (cfg : TrainConfig) (lossOf : ℕ → RVal) :
    ℕ → ℕ → List TrainEvent → ℕ × List TrainEvent × Bool
  | 0, g, evs => (g, evs, false)
  | b + 1, g, evs =>
    let g1 := g + 1
    match lossOf g1 with
    | none => (g1, evs ++ [TrainEvent.nanAbort g1], false)
    | some _ =>
      let evs := evs ++ stepEvents cfg g1
      if g1 = cfg.numSteps then (g1, evs, true)
      else innerLoop cfg lossOf b g1 evs

/-- Outer epoch loop of do_train (model.py line 190): range over the number
of training steps, re-iterating the dataloader each epoch; the loop breaks
only when the inner loop reports that global_step reached the target. -/
def outerLoop (cfg : TrainConfig) (lossOf : ℕ → RVal) :
    ℕ → ℕ → List TrainEvent → ℕ × List TrainEvent
  | 0, g, evs => (g, evs)
  | e + 1, g, evs =>
    match innerLoop cfg lossOf cfg.numBatches g evs with
    | (g1, evs1, true) => (g1, evs1)
    | (g1, evs1, false) => outerLoop cfg lossOf e g1 evs1

/-- Embedding of MetaICLModel.do_train (model.py lines 177-239): global_step
starts at 0 and the epoch loop runs over range of num_training_steps. -/
def do_train (cfg : TrainConfig) (lossOf : ℕ → RVal) : ℕ × List TrainEvent :=
  outerLoop cfg lossOf cfg.numSteps 0 []

/-- Optimizer kind selected by setup_optimizer. -/
inductive OptKind where
  | adafactor
  | adamw
  | adam8bit
deriving Repr, DecidableEq

/-- Embedding of MetaICLModel.setup_optimizer (model.py lines 126-163):
the dispatch on the optimization strategy name.  On success it returns the
selected optimizer kind and whether a linear warmup scheduler is attached;
the two NotImplementedError raises are the error result.  The construction
of the torch optimizer objects, the fp16 wrapping and the library imports
are external collaborators and not part of the dispatch being verified. -/
def setup_optimizer (optimization : PyStr) : Except Unit (OptKind × Bool) :=
  if optimization = "adafactor".data then
    Except.ok (OptKind.adafactor, false)
  else if "adamw".data.isPrefixOf optimization then
    if optimization = "adamw".data then Except.ok (OptKind.adamw, true)
    else Except.error ()
  else if optimization = "8bit-adam".data then
    Except.ok (OptKind.adam8bit, true)
  else
    Except.error ()

/-- Pairwise statement that a list is sorted for a strict Bool comparison:
no element strictly below an element standing before it. -/
def SortedB (lt : α → α → Bool) (l : List α) : Prop :=
  l.Pairwise (fun a b => lt b a = false)

/-- Per-option aggregated losses of one metadata record, as the list
comprehension of model.py line 279 evaluates when every index is in bounds. -/
def currLosses (losses : List RVal) (dp : DP) : List RVal :=
  dp.indices.map (fun ids => rsum (ids.map (fun i => losses.getD i none)))

/-- Test whether a training event is an optimizer step. -/
def isOptimizerStep : TrainEvent → Bool
  | TrainEvent.optimizerStep _ => true
  | _ => false

/-!  Theorems for the claims. -/

/-- C3: for every dataset, do_inference with do_probs set returns the softmax
of the negated collected loss array computed with one single global
normalizing sum over all items (not per example), and with the flag unset it
returns the raw per-item losses in dataloader iteration order (the
concatenation of the per-batch Scorer outputs). -/
theorem do_inference_global_softmax (modelF : ModelF) (ce : CeF) (expF : ℚ → ℚ)
    (batches : List Batch) :
    do_inference modelF ce expF batches true
        = globalSoftmax expF ((do_inference modelF ce expF batches false).map rneg)
      ∧ do_inference modelF ce expF batches false
        = (batches.map (fun b =>
            run_model modelF ce b.input_ids b.attention_mask b.token_type_ids b.labels)).flatten := by
  refine ⟨?_, rfl⟩
  simp only [do_inference, globalSoftmax, if_true, if_false, List.map_map]
  rfl

/-- C10: the result of do_predict does not depend on the losses argument it
was handed: the source overwrites it with a fresh do_inference run before
any use, so any two values passed there give identical predictions. -/
theorem do_predict_ignores_losses (modelF : ModelF) (ce : CeF) (expF : ℚ → ℚ)
    (batches : List Batch) (metadata : List DP) (dataLen : ℕ)
    (l1 l2 : Option (List RVal)) (require_loss : Bool) (label_id : Option ℕ)
    (do_probs : Bool) :
    do_predict modelF ce expF batches metadata dataLen l1 require_loss label_id do_probs
      = do_predict modelF ce expF batches metadata dataLen l2 require_loss label_id do_probs :=
  rfl

/-- C8: setup_optimizer succeeds exactly on the three supported strategy
names adafactor, adamw and 8bit-adam; every other name, among them every
adamw-prefixed variant other than plain adamw, raises NotImplementedError
(the error result). -/
theorem setup_optimizer_ok_iff (optimization : PyStr) :
    (setup_optimizer optimization).isOk = true
      ↔ optimization = "adafactor".data ∨ optimization = "adamw".data
          ∨ optimization = "8bit-adam".data := by
  unfold setup_optimizer
  by_cases h1 : optimization = "adafactor".data
  · simp [h1, Except.isOk, Except.toBool]
  · by_cases h2 : optimization = "adamw".data
    · subst h2
      simp [h1, Except.isOk, Except.toBool, show "adamw".data.isPrefixOf "adamw".data = true by decide]
    · by_cases h3 : optimization = "8bit-adam".data
      · subst h3
        simp [h1, h2, Except.isOk, Except.toBool,
          show "adamw".data.isPrefixOf "8bit-adam".data = false by decide]
      · by_cases hs : "adamw".data.isPrefixOf optimization
        · simp [h1, h2, h3, hs, Except.isOk, Except.toBool]
        · simp [h1, h2, h3, hs, Except.isOk, Except.toBool]

/-- C2 counterexample: a concrete batch with a label-mask entry of 2 on which
the output of run_model differs from the claim formula dividing by the COUNT
of nonzero label-mask tokens (the source divides by the SUM of the mask
values instead). -/
theorem run_model_count_divisor_fails :
    run_model (fun _ _ => [[[0, 0], [0, 0]]]) (fun _ _ => 1)
        [[0, 0]] [[1, 1]] [[0, 2]] none
      ≠ [scorerCountEntry (fun _ _ => 1) [[0, 0], [0, 0]] [0, 0] [0, 2]] := by
  norm_num [run_model, scorerCountEntry, maskedLossSum, rdiv]

/-- Helper: an index below the length turns getElem? into some of getD. -/
theorem getElem?_eq_some_getD (l : List α) (d : α) {k : ℕ} (h : k < l.length) :
    l[k]? = some (l.getD k d) := by
  rw [List.getElem?_eq_getElem h, List.getD_eq_getElem l d h]

/-- C2 amended: for every batch whose tensors are rectangular (one logit row
list per example, one mask row and one label row per example), run_model
returns one scalar per example, the k-th being the shifted masked
cross-entropy sum of example k divided by the SUM of the shifted label-mask
values of example k (the claim said the count of nonzero mask tokens, which
agrees only for 0/1 masks); the output length equals the batch size. -/
theorem run_model_sum_divisor (modelF : ModelF) (ce : CeF)
    (input_ids attention_mask token_type_ids : List (List ℕ))
    (labels : Option (List (List ℕ)))
    (hlog : (modelF input_ids attention_mask).length = input_ids.length)
    (httl : token_type_ids.length = input_ids.length)
    (hlab : (labels.getD input_ids).length = input_ids.length) :
    (run_model modelF ce input_ids attention_mask token_type_ids labels).length
        = input_ids.length
      ∧ ∀ k, k < input_ids.length →
          (run_model modelF ce input_ids attention_mask token_type_ids labels).getD k none
            = scorerSumEntry ce ((modelF input_ids attention_mask).getD k [])
                ((labels.getD input_ids).getD k []) (token_type_ids.getD k []) := by
  constructor
  · unfold run_model
    simp only [List.length_zipWith, List.length_map]
    omega
  · intro k hk
    obtain ⟨L, hL⟩ : ∃ L, (modelF input_ids attention_mask)[k]? = some L :=
      ⟨_, getElem?_eq_some_getD _ [] (by omega)⟩
    obtain ⟨T, hT⟩ : ∃ T, token_type_ids[k]? = some T :=
      ⟨_, getElem?_eq_some_getD _ [] (by omega)⟩
    obtain ⟨B, hB⟩ : ∃ B, (labels.getD input_ids)[k]? = some B :=
      ⟨_, getElem?_eq_some_getD _ [] (by omega)⟩
    have hLD : (modelF input_ids attention_mask).getD k [] = L := by
      rw [List.getD_eq_getElem?_getD, hL, Option.getD_some]
    have hTD : token_type_ids.getD k [] = T := by
      rw [List.getD_eq_getElem?_getD, hT, Option.getD_some]
    have hBD : (labels.getD input_ids).getD k [] = B := by
      rw [List.getD_eq_getElem?_getD, hB, Option.getD_some]
    rw [hLD, hTD, hBD, List.getD_eq_getElem?_getD]
    unfold run_model
    simp only [List.getElem?_zipWith', List.getElem?_map, hL, hT, hB,
      Option.map_some', Option.bind_some, Option.some_bind, Option.getD_some]
    rfl

/-- Witness for the C2 amended theorem at a concrete rectangular batch. -/
theorem run_model_sum_divisor_witness :
    (run_model (fun _ _ => [[[0, 0], [0, 0]]]) (fun _ _ => 1)
        [[0, 0]] [[1, 1]] [[0, 2]] none).length = 1
      ∧ ∀ k, k < ([[0, 0]] : List (List ℕ)).length →
          (run_model (fun _ _ => [[[0, 0], [0, 0]]]) (fun _ _ => 1)
              [[0, 0]] [[1, 1]] [[0, 2]] none).getD k none
            = scorerSumEntry (fun _ _ => 1)
                (((fun _ _ => [[[0, 0], [0, 0]]]) : ModelF) [[0, 0]] [[1, 1]] |>.getD k [])
                ((none.getD [[0, 0]]).getD k []) (([[0, 2]] : List (List ℕ)).getD k []) :=
  run_model_sum_divisor (fun _ _ => [[[0, 0], [0, 0]]]) (fun _ _ => 1)
    [[0, 0]] [[1, 1]] [[0, 2]] none rfl rfl rfl

/-- C9 counterexample: a concrete batch whose label mask has a nonzero token
(at position 0 only), yet the Scorer output for the example is NaN, because
the mask is shifted by one position before the normalizing division. -/
theorem run_model_nonzero_mask_still_nan :
    (∃ m ∈ ([1, 0] : List ℕ), m ≠ 0)
      ∧ run_model (fun _ _ => [[[0, 0], [0, 0]]]) (fun _ _ => 1)
          [[0, 0]] [[1, 1]] [[1, 0]] none = [none] := by
  constructor
  · exact ⟨1, by norm_num⟩
  · norm_num [run_model, rdiv]

/-- C9 amended: for every rectangular batch, the Scorer output entry of an
example is NaN exactly when every label-mask token of that example at the
positions surviving the shift (positions at index 1 and beyond) is zero; in
particular an all-zero label mask gives NaN, and an example with a nonzero
label-mask token after the first position is never NaN from the division. -/
theorem run_model_nan_iff_shifted_mask_zero (modelF : ModelF) (ce : CeF)
    (input_ids attention_mask token_type_ids : List (List ℕ))
    (labels : Option (List (List ℕ)))
    (hlog : (modelF input_ids attention_mask).length = input_ids.length)
    (httl : token_type_ids.length = input_ids.length)
    (hlab : (labels.getD input_ids).length = input_ids.length) :
    ∀ k, k < input_ids.length →
      ((run_model modelF ce input_ids attention_mask token_type_ids labels).getD k none = none
        ↔ ∀ m ∈ (token_type_ids.getD k []).drop 1, m = 0) := by
  intro k hk
  have hspec := (run_model_sum_divisor modelF ce input_ids attention_mask token_type_ids
    labels hlog httl hlab).2 k hk
  rw [hspec]
  unfold scorerSumEntry
  have hcast : (((token_type_ids.getD k []).drop 1).map (fun (m : ℕ) => (m : ℚ))).sum
      = ((((token_type_ids.getD k []).drop 1).sum : ℕ) : ℚ) :=
    (Nat.cast_list_sum _).symm
  rw [hcast]
  by_cases hz : ((token_type_ids.getD k []).drop 1).sum = 0
  · simp only [rdiv, hz, Nat.cast_zero, if_true, eq_self_iff_true]
    exact iff_of_true trivial (List.sum_eq_zero_iff.mp hz)
  · have hq : ¬ ((((token_type_ids.getD k []).drop 1).sum : ℕ) : ℚ) = 0 := by
      exact_mod_cast hz
    simp only [rdiv, if_neg hq]
    simp only [iff_false, Option.some_ne_none, false_iff]
    exact fun hall => hz (List.sum_eq_zero_iff.mpr hall)

/-- Witness for the C9 amended theorem: a batch whose only mask token sits
after the shift, instantiated at example index 0. -/
theorem run_model_nan_iff_shifted_mask_zero_witness :
    (run_model (fun _ _ => [[[0, 0], [0, 0]]]) (fun _ _ => 1)
        [[0, 0]] [[1, 1]] [[0, 1]] none).getD 0 none = none
      ↔ ∀ m ∈ (([[0, 1]] : List (List ℕ)).getD 0 []).drop 1, m = 0 :=
  run_model_nan_iff_shifted_mask_zero (fun _ _ => [[[0, 0], [0, 0]]]) (fun _ _ => 1)
    [[0, 0]] [[1, 1]] [[0, 1]] none rfl rfl rfl 0 (by decide)

/-!  Helper lemmas on the stable sort, enumeration and aggregation, shared by
the Prediction Selector claims. -/

/-- Inserting with insertLater permutes the element onto the list. -/
theorem insertLater_perm (lt : α → α → Bool) (x : α) (l : List α) :
    (insertLater lt x l).Perm (x :: l) := by
  induction l with
  | nil => exact List.Perm.refl _
  | cons y ys ih =>
    unfold insertLater
    by_cases h : lt x y = true
    · simp [h]
    · simp only [h, if_false, Bool.false_eq_true]
      exact (ih.cons y).trans (List.Perm.swap x y ys)

/-- Membership through insertLater. -/
theorem mem_insertLater {lt : α → α → Bool} {x : α} {l : List α} {y : α} :
    y ∈ insertLater lt x l ↔ y = x ∨ y ∈ l := by
  rw [(insertLater_perm lt x l).mem_iff, List.mem_cons]

/-- For a comparison that is asymmetric and transitive against negations,
insertLater preserves sortedness. -/
theorem insertLater_sortedB (lt : α → α → Bool)
    (hasym : ∀ a b, lt a b = true → lt b a = false)
    (htr : ∀ a b c, lt a b = true → lt c b = false → lt c a = false)
    (x : α) (l : List α) (hl : SortedB lt l) : SortedB lt (insertLater lt x l) := by
  induction l with
  | nil => simp [insertLater, SortedB]
  | cons y ys ih =>
    unfold insertLater
    rcases hl with _ | ⟨hy, hys⟩
    by_cases h : lt x y = true
    · rw [if_pos h]
      refine List.Pairwise.cons ?_ (List.Pairwise.cons hy hys)
      intro z hz
      rcases List.mem_cons.mp hz with rfl | hz
      · exact hasym _ _ h
      · exact htr _ _ _ h (hy z hz)
    · rw [if_neg h]
      refine List.Pairwise.cons ?_ (ih hys)
      intro z hz
      rcases mem_insertLater.mp hz with rfl | hz
      · simpa using h
      · exact hy z hz

/-- The stable sort permutes its input. -/
theorem pySorted_perm (lt : α → α → Bool) (l : List α) : (pySorted lt l).Perm l := by
  suffices h : ∀ (l acc : List α),
      (l.foldl (fun acc x => insertLater lt x acc) acc).Perm (acc ++ l) by
    simpa using h l []
  intro l
  induction l with
  | nil => intro acc; simp
  | cons x xs ih =>
    intro acc
    have h1 := ih (insertLater lt x acc)
    have h2 : (insertLater lt x acc ++ xs).Perm ((x :: acc) ++ xs) :=
      (insertLater_perm lt x acc).append_right xs
    have h3 : ((x :: acc) ++ xs).Perm (acc ++ x :: xs) := by
      simpa using List.perm_middle.symm
    exact (h1.trans h2).trans h3

/-- The stable sort output is sorted. -/
theorem pySorted_sortedB (lt : α → α → Bool)
    (hasym : ∀ a b, lt a b = true → lt b a = false)
    (htr : ∀ a b c, lt a b = true → lt c b = false → lt c a = false)
    (l : List α) : SortedB lt (pySorted lt l) := by
  suffices h : ∀ (l acc : List α), SortedB lt acc →
      SortedB lt (l.foldl (fun acc x => insertLater lt x acc) acc) by
    exact h l [] List.Pairwise.nil
  intro l
  induction l with
  | nil => intro acc hacc; simpa using hacc
  | cons x xs ih =>
    intro acc hacc
    exact ih _ (insertLater_sortedB lt hasym htr x acc hacc)

/-- The head of the stable sort is a least element for the comparison. -/
theorem pySorted_head_min (lt : α → α → Bool)
    (hasym : ∀ a b, lt a b = true → lt b a = false)
    (htr : ∀ a b c, lt a b = true → lt c b = false → lt c a = false)
    (l : List α) (x : α) (hx : (pySorted lt l).head? = some x) :
    x ∈ l ∧ ∀ y ∈ l, lt y x = false := by
  obtain ⟨t, ht⟩ : ∃ t, pySorted lt l = x :: t := by
    cases hp : pySorted lt l with
    | nil => rw [hp] at hx; simp at hx
    | cons a t => rw [hp] at hx; simp at hx; exact ⟨t, by rw [hx]⟩
  have hperm := pySorted_perm lt l
  rw [ht] at hperm
  constructor
  · exact hperm.mem_iff.mp (List.mem_cons_self x t)
  · intro y hy
    rcases List.mem_cons.mp (hperm.mem_iff.mpr hy) with rfl | hyt
    · by_cases h : lt y y = true
      · exact hasym _ _ h
      · simpa using h
    · have hs := pySorted_sortedB lt hasym htr l
      rw [ht] at hs
      exact (List.pairwise_cons.mp hs).1 y hyt

/-- Length of enumFrom. -/
theorem enumFrom_length (n : ℕ) (l : List α) : (enumFrom n l).length = l.length := by
  induction l generalizing n with
  | nil => rfl
  | cons x xs ih => simp [enumFrom, ih]

/-- Membership of enumFrom characterized through get?. -/
theorem mem_enumFrom {l : List α} {p : ℕ × α} : ∀ {n : ℕ},
    p ∈ enumFrom n l ↔ n ≤ p.1 ∧ l.get? (p.1 - n) = some p.2 := by
  induction l with
  | nil => intro n; simp [enumFrom]
  | cons x xs ih =>
    intro n
    simp only [enumFrom, List.mem_cons, ih]
    constructor
    · rintro (rfl | ⟨h1, h2⟩)
      · simp
      · refine ⟨by omega, ?_⟩
        have : p.1 - n = (p.1 - (n + 1)) + 1 := by omega
        rw [this]
        simpa using h2
    · rintro ⟨h1, h2⟩
      by_cases he : p.1 = n
      · left
        rw [he] at h2; simp at h2
        obtain ⟨a, b⟩ := p
        simp at he ⊢
        exact ⟨he, h2.symm⟩
      · right
        refine ⟨by omega, ?_⟩
        have : p.1 - n = (p.1 - (n + 1)) + 1 := by omega
        rw [this] at h2
        simpa using h2

/-- Membership of enumFrom at offset zero. -/
theorem mem_enumFrom_zero {l : List α} {p : ℕ × α} :
    p ∈ enumFrom 0 l ↔ l.get? p.1 = some p.2 := by
  rw [mem_enumFrom]
  simp

/-- The RVal comparison is asymmetric. -/
theorem rlt_asymm (a b : RVal) : rlt a b = true → rlt b a = false := by
  cases a <;> cases b <;> simp [rlt]
  intro h
  exact le_of_lt h

/-- Negative transitivity of the RVal comparison, first form. -/
theorem rlt_ntrans (a b c : RVal) : rlt a b = true → rlt c b = false → rlt c a = false := by
  cases a <;> cases b <;> cases c <;> simp [rlt]
  intro h1 h2
  linarith

/-- Negative transitivity of the RVal comparison, second form. -/
theorem rlt_ntrans2 (a b c : RVal) : rlt b a = true → rlt b c = false → rlt a c = false := by
  cases a <;> cases b <;> cases c <;> simp [rlt]
  intro h1 h2
  linarith

/-- Key comparison for ascending sorted calls is asymmetric. -/
theorem ltBySnd_asymm (a b : ℕ × RVal) : ltBySnd a b = true → ltBySnd b a = false :=
  fun h => rlt_asymm _ _ h

/-- Key comparison for ascending sorted calls is negatively transitive. -/
theorem ltBySnd_ntrans (a b c : ℕ × RVal) :
    ltBySnd a b = true → ltBySnd c b = false → ltBySnd c a = false :=
  fun h1 h2 => rlt_ntrans _ _ _ h1 h2

/-- Key comparison for descending sorted calls is asymmetric. -/
theorem gtBySnd_asymm (a b : ℕ × RVal) : gtBySnd a b = true → gtBySnd b a = false :=
  fun h => rlt_asymm _ _ h

/-- Key comparison for descending sorted calls is negatively transitive. -/
theorem gtBySnd_ntrans (a b c : ℕ × RVal) :
    gtBySnd a b = true → gtBySnd c b = false → gtBySnd c a = false :=
  fun h1 h2 => rlt_ntrans2 _ _ _ h1 h2

/-- mapM over Option succeeds pointwise. -/
theorem mapM_eq_map_of_forall_some {α β : Type} {f : α → Option β} {g : α → β} :
    ∀ (l : List α), (∀ a ∈ l, f a = some (g a)) → l.mapM f = some (l.map g) := by
  intro l
  induction l with
  | nil => intro _; rfl
  | cons x xs ih =>
    intro h
    rw [List.mapM_cons, h x (List.mem_cons_self x xs),
      ih (fun a ha => h a (List.mem_cons_of_mem x ha))]
    rfl

/-- aggregate succeeds and computes the fancy-indexed sum when every index of
the option is within the loss array. -/
theorem aggregate_eq (losses : List RVal) (ids : List ℕ)
    (h : ∀ i ∈ ids, i < losses.length) :
    aggregate losses ids = some (rsum (ids.map (fun i => losses.getD i none))) := by
  unfold aggregate
  rw [if_pos]
  rw [List.all_eq_true]
  intro i hi
  simpa using h i hi

/-- The option-loss list comprehension of do_predict succeeds and computes
currLosses when the metadata indices are within the loss array. -/
theorem mapM_aggregate (losses : List RVal) (dp : DP)
    (h : ∀ ids ∈ dp.indices, ∀ i ∈ ids, i < losses.length) :
    dp.indices.mapM (aggregate losses) = some (currLosses losses dp) :=
  mapM_eq_map_of_forall_some dp.indices (fun ids hids => aggregate_eq losses ids (h ids hids))

/-- Generic description of the head of a sorted enumeration: it is an entry
of the list and no entry compares strictly below it. -/
theorem sortedHead_generic (lt : ℕ × RVal → ℕ × RVal → Bool)
    (hasym : ∀ a b, lt a b = true → lt b a = false)
    (htr : ∀ a b c, lt a b = true → lt c b = false → lt c a = false)
    (curr : List RVal) (hne : curr ≠ []) :
    ∃ p, (pySorted lt (enumFrom 0 curr)).head? = some p
      ∧ curr.get? p.1 = some p.2
      ∧ ∀ j w, curr.get? j = some w → lt (j, w) p = false := by
  obtain ⟨p, hp⟩ : ∃ p, (pySorted lt (enumFrom 0 curr)).head? = some p := by
    have hlen : (pySorted lt (enumFrom 0 curr)).length = curr.length := by
      rw [(pySorted_perm lt (enumFrom 0 curr)).length_eq, enumFrom_length]
    have hnz : 0 < curr.length := List.length_pos.mpr hne
    cases hq : pySorted lt (enumFrom 0 curr) with
    | nil => rw [hq] at hlen; simp at hlen; omega
    | cons a t => exact ⟨a, by simp [hq]⟩
  obtain ⟨hmem, hmin⟩ := pySorted_head_min lt hasym htr (enumFrom 0 curr) p hp
  refine ⟨p, hp, mem_enumFrom_zero.mp hmem, ?_⟩
  intro j w hw
  exact hmin (j, w) (mem_enumFrom_zero.mpr hw)

/-- Head of the ascending sorted enumeration of a NaN-free list: a minimal
aggregated value together with its index. -/
theorem sortedHead_min (curr : List RVal) (hne : curr ≠ [])
    (hfin : ∀ v ∈ curr, v ≠ none) :
    ∃ k a, k < curr.length ∧ curr.get? k = some (some a)
      ∧ (∀ j b, curr.get? j = some (some b) → a ≤ b)
      ∧ (pySorted ltBySnd (enumFrom 0 curr)).head? = some (k, some a) := by
  obtain ⟨p, hp, hget, hmin⟩ := sortedHead_generic ltBySnd ltBySnd_asymm ltBySnd_ntrans curr hne
  obtain ⟨a, ha⟩ : ∃ a, p.2 = some a := by
    cases hv : p.2 with
    | none => exact absurd hv (hfin p.2 (List.get?_mem hget) |>.imp id |> fun h => h)
    | some a => exact ⟨a, rfl⟩
  refine ⟨p.1, a, ?_, by rw [← ha]; exact hget, ?_, by rw [← ha]; exact hp⟩
  · rw [List.get?_eq_some] at hget
    exact hget.1
  · intro j b hb
    have h2 := hmin j (some b) hb
    simp only [ltBySnd] at h2
    rw [ha] at h2
    simp only [rlt] at h2
    exact not_lt.mp (by simpa using h2)

/-- Head of the descending sorted enumeration of a NaN-free list: a maximal
aggregated value together with its index. -/
theorem sortedHead_max (curr : List RVal) (hne : curr ≠ [])
    (hfin : ∀ v ∈ curr, v ≠ none) :
    ∃ k a, k < curr.length ∧ curr.get? k = some (some a)
      ∧ (∀ j b, curr.get? j = some (some b) → b ≤ a)
      ∧ (pySorted gtBySnd (enumFrom 0 curr)).head? = some (k, some a) := by
  obtain ⟨p, hp, hget, hmin⟩ := sortedHead_generic gtBySnd gtBySnd_asymm gtBySnd_ntrans curr hne
  obtain ⟨a, ha⟩ : ∃ a, p.2 = some a := by
    cases hv : p.2 with
    | none => exact absurd hv (hfin p.2 (List.get?_mem hget) |>.imp id |> fun h => h)
    | some a => exact ⟨a, rfl⟩
  refine ⟨p.1, a, ?_, by rw [← ha]; exact hget, ?_, by rw [← ha]; exact hp⟩
  · rw [List.get?_eq_some] at hget
    exact hget.1
  · intro j b hb
    have h2 := hmin j (some b) hb
    simp only [gtBySnd] at h2
    rw [ha] at h2
    simp only [rlt] at h2
    exact not_lt.mp (by simpa using h2)

/-- C4: in do_predict with label_id not given and require_loss false, the
prediction appended for an example is the bare stripped option string whose
aggregated loss is minimal among the options of the example (hypotheses: the
metadata indices stay within the loss array, the example has at least one
option, an option string exists for every index set, and no aggregated loss
is NaN). -/
theorem predictOne_min_loss (do_probs : Bool) (losses : List RVal) (dp : DP)
    (hidx : ∀ ids ∈ dp.indices, ∀ i ∈ ids, i < losses.length)
    (hne : dp.indices ≠ [])
    (hopts : dp.indices.length ≤ dp.options.length)
    (hfin : ∀ v ∈ currLosses losses dp, v ≠ none) :
    ∃ k a, k < dp.indices.length
      ∧ (currLosses losses dp).get? k = some (some a)
      ∧ (∀ j b, (currLosses losses dp).get? j = some (some b) → a ≤ b)
      ∧ predictOne none false do_probs losses dp
          = some [Pred.bare (pyStrip (dp.options.getD k []))] := by
  have hcne : currLosses losses dp ≠ [] := by
    simpa [currLosses] using hne
  obtain ⟨k, a, hk, hget, hmin, hhead⟩ := sortedHead_min (currLosses losses dp) hcne hfin
  have hklen : k < dp.indices.length := by simpa [currLosses] using hk
  have hopt : dp.options.get? k = some (dp.options.getD k []) := by
    rw [List.get?_eq_getElem?]
    exact getElem?_eq_some_getD _ _ (lt_of_lt_of_le hklen hopts)
  refine ⟨k, a, hklen, hget, hmin, ?_⟩
  unfold predictOne
  rw [mapM_aggregate losses dp hidx]
  simp only [Option.pure_def, Option.bind_eq_bind, Option.some_bind, Bool.not_false, if_true]
  rw [hhead]
  simp only [Option.some_bind]
  rw [hopt]
  simp only [Option.some_bind, List.nil_append]

/-- Witness for C4 at the spec test data: three options whose aggregated
losses are 5, 1 and 7. -/
theorem predictOne_min_loss_witness :
    ∃ k a, k < (DP.mk [" A ".data, "B".data, "C".data] [[0], [1], [2, 3]]).indices.length
      ∧ (currLosses [some 5, some 1, some 3, some 4]
          (DP.mk [" A ".data, "B".data, "C".data] [[0], [1], [2, 3]])).get? k = some (some a)
      ∧ (∀ j b, (currLosses [some 5, some 1, some 3, some 4]
          (DP.mk [" A ".data, "B".data, "C".data] [[0], [1], [2, 3]])).get? j = some (some b) → a ≤ b)
      ∧ predictOne none false false [some 5, some 1, some 3, some 4]
            (DP.mk [" A ".data, "B".data, "C".data] [[0], [1], [2, 3]])
          = some [Pred.bare (pyStrip ((DP.mk [" A ".data, "B".data, "C".data]
              [[0], [1], [2, 3]]).options.getD k []))] :=
  predictOne_min_loss false [some 5, some 1, some 3, some 4]
    (DP.mk [" A ".data, "B".data, "C".data] [[0], [1], [2, 3]])
    (by decide) (by decide) (by decide)
    (by intro v hv
        simp [currLosses, rsum, radd] at hv
        rcases hv with rfl | rfl | rfl <;> simp)

/-- C5: in do_predict with label_id given and require_loss false, an example
contributes exactly two entries in order: first the stripped option at
label_id paired with its aggregated loss, then the bare stripped
minimum-loss option string. -/
theorem predictOne_label_id_two_entries (do_probs : Bool) (lid : ℕ)
    (losses : List RVal) (dp : DP)
    (hidx : ∀ ids ∈ dp.indices, ∀ i ∈ ids, i < losses.length)
    (hne : dp.indices ≠ [])
    (hopts : dp.indices.length ≤ dp.options.length)
    (hfin : ∀ v ∈ currLosses losses dp, v ≠ none)
    (hlid : lid < dp.indices.length) :
    ∃ k a, k < dp.indices.length
      ∧ (currLosses losses dp).get? k = some (some a)
      ∧ (∀ j b, (currLosses losses dp).get? j = some (some b) → a ≤ b)
      ∧ predictOne (some lid) false do_probs losses dp
          = some [Pred.withScore (pyStrip (dp.options.getD lid []))
                    ((currLosses losses dp).getD lid none),
                  Pred.bare (pyStrip (dp.options.getD k []))] := by
  have hcne : currLosses losses dp ≠ [] := by
    simpa [currLosses] using hne
  obtain ⟨k, a, hk, hget, hmin, hhead⟩ := sortedHead_min (currLosses losses dp) hcne hfin
  have hklen : k < dp.indices.length := by simpa [currLosses] using hk
  have hopt : dp.options.get? k = some (dp.options.getD k []) := by
    rw [List.get?_eq_getElem?]
    exact getElem?_eq_some_getD _ _ (lt_of_lt_of_le hklen hopts)
  have hoptl : dp.options.get? lid = some (dp.options.getD lid []) := by
    rw [List.get?_eq_getElem?]
    exact getElem?_eq_some_getD _ _ (lt_of_lt_of_le hlid hopts)
  have hcurl : (currLosses losses dp).get? lid
      = some ((currLosses losses dp).getD lid none) := by
    rw [List.get?_eq_getElem?]
    exact getElem?_eq_some_getD _ _ (by simpa [currLosses] using hlid)
  refine ⟨k, a, hklen, hget, hmin, ?_⟩
  unfold predictOne
  rw [mapM_aggregate losses dp hidx]
  simp only [Option.pure_def, Option.bind_eq_bind, Option.some_bind, Bool.not_false, if_true]
  rw [hoptl]
  simp only [Option.some_bind]
  rw [hcurl]
  simp only [Option.some_bind]
  rw [hhead]
  simp only [Option.some_bind]
  rw [hopt]
  simp only [Option.some_bind, List.singleton_append]

/-- Witness for C5 with label_id 0: the pair for option 0 and then the bare
minimum-loss option. -/
theorem predictOne_label_id_two_entries_witness :
    ∃ k a, k < (DP.mk [" A ".data, "B".data, "C".data] [[0], [1], [2, 3]]).indices.length
      ∧ (currLosses [some 5, some 1, some 3, some 4]
          (DP.mk [" A ".data, "B".data, "C".data] [[0], [1], [2, 3]])).get? k = some (some a)
      ∧ (∀ j b, (currLosses [some 5, some 1, some 3, some 4]
          (DP.mk [" A ".data, "B".data, "C".data] [[0], [1], [2, 3]])).get? j = some (some b) → a ≤ b)
      ∧ predictOne (some 0) false false [some 5, some 1, some 3, some 4]
            (DP.mk [" A ".data, "B".data, "C".data] [[0], [1], [2, 3]])
          = some [Pred.withScore (pyStrip ((DP.mk [" A ".data, "B".data, "C".data]
                [[0], [1], [2, 3]]).options.getD 0 []))
                ((currLosses [some 5, some 1, some 3, some 4]
                  (DP.mk [" A ".data, "B".data, "C".data] [[0], [1], [2, 3]])).getD 0 none),
              Pred.bare (pyStrip ((DP.mk [" A ".data, "B".data, "C".data]
                [[0], [1], [2, 3]]).options.getD k []))] :=
  predictOne_label_id_two_entries false 0 [some 5, some 1, some 3, some 4]
    (DP.mk [" A ".data, "B".data, "C".data] [[0], [1], [2, 3]])
    (by decide) (by decide) (by decide)
    (by intro v hv
        simp [currLosses, rsum, radd] at hv
        rcases hv with rfl | rfl | rfl <;> simp)
    (by decide)

/-- C6: in do_predict with require_loss true and label_id not given, the
prediction appended for an example is the stripped option string paired with
its aggregated score, the option ranked first after sorting scores
descending when do_probs is set and ascending otherwise. -/
theorem predictOne_top_by_direction (do_probs : Bool) (losses : List RVal) (dp : DP)
    (hidx : ∀ ids ∈ dp.indices, ∀ i ∈ ids, i < losses.length)
    (hne : dp.indices ≠ [])
    (hopts : dp.indices.length ≤ dp.options.length)
    (hfin : ∀ v ∈ currLosses losses dp, v ≠ none) :
    ∃ k a, k < dp.indices.length
      ∧ (currLosses losses dp).get? k = some (some a)
      ∧ (if do_probs then
            ∀ j b, (currLosses losses dp).get? j = some (some b) → b ≤ a
          else
            ∀ j b, (currLosses losses dp).get? j = some (some b) → a ≤ b)
      ∧ predictOne none true do_probs losses dp
          = some [Pred.withScore (pyStrip (dp.options.getD k [])) (some a)] := by
  have hcne : currLosses losses dp ≠ [] := by
    simpa [currLosses] using hne
  cases do_probs with
  | true =>
    obtain ⟨k, a, hk, hget, hmax, hhead⟩ := sortedHead_max (currLosses losses dp) hcne hfin
    have hklen : k < dp.indices.length := by simpa [currLosses] using hk
    have hopt : dp.options.get? k = some (dp.options.getD k []) := by
      rw [List.get?_eq_getElem?]
      exact getElem?_eq_some_getD _ _ (lt_of_lt_of_le hklen hopts)
    refine ⟨k, a, hklen, hget, by simpa using hmax, ?_⟩
    unfold predictOne
    rw [mapM_aggregate losses dp hidx]
    simp only [Option.pure_def, Option.bind_eq_bind, Option.some_bind, Bool.not_true,
      if_false, if_true, Bool.false_eq_true]
    rw [hhead]
    simp only [Option.some_bind]
    rw [hopt]
    simp only [Option.some_bind, List.nil_append]
  | false =>
    obtain ⟨k, a, hk, hget, hmin, hhead⟩ := sortedHead_min (currLosses losses dp) hcne hfin
    have hklen : k < dp.indices.length := by simpa [currLosses] using hk
    have hopt : dp.options.get? k = some (dp.options.getD k []) := by
      rw [List.get?_eq_getElem?]
      exact getElem?_eq_some_getD _ _ (lt_of_lt_of_le hklen hopts)
    refine ⟨k, a, hklen, hget, by simpa using hmin, ?_⟩
    unfold predictOne
    rw [mapM_aggregate losses dp hidx]
    simp only [Option.pure_def, Option.bind_eq_bind, Option.some_bind, Bool.not_true,
      if_false, if_true, Bool.false_eq_true]
    rw [hhead]
    simp only [Option.some_bind]
    rw [hopt]
    simp only [Option.some_bind, List.nil_append]

/-- Witness for C6 with do_probs set: the maximal aggregated score wins. -/
theorem predictOne_top_by_direction_witness :
    ∃ k a, k < (DP.mk [" A ".data, "B".data, "C".data] [[0], [1], [2, 3]]).indices.length
      ∧ (currLosses [some 5, some 1, some 3, some 4]
          (DP.mk [" A ".data, "B".data, "C".data] [[0], [1], [2, 3]])).get? k = some (some a)
      ∧ (if true then
            ∀ j b, (currLosses [some 5, some 1, some 3, some 4]
              (DP.mk [" A ".data, "B".data, "C".data] [[0], [1], [2, 3]])).get? j
                = some (some b) → b ≤ a
          else
            ∀ j b, (currLosses [some 5, some 1, some 3, some 4]
              (DP.mk [" A ".data, "B".data, "C".data] [[0], [1], [2, 3]])).get? j
                = some (some b) → a ≤ b)
      ∧ predictOne none true true [some 5, some 1, some 3, some 4]
            (DP.mk [" A ".data, "B".data, "C".data] [[0], [1], [2, 3]])
          = some [Pred.withScore (pyStrip ((DP.mk [" A ".data, "B".data, "C".data]
              [[0], [1], [2, 3]]).options.getD k [])) (some a)] :=
  predictOne_top_by_direction true [some 5, some 1, some 3, some 4]
    (DP.mk [" A ".data, "B".data, "C".data] [[0], [1], [2, 3]])
    (by decide) (by decide) (by decide)
    (by intro v hv
        simp [currLosses, rsum, radd] at hv
        rcases hv with rfl | rfl | rfl <;> simp)

/-!  Helper lemmas on the training loop trace. -/

/-- Concatenation of two unit-step ranges. -/
theorem range'_append_one (s m k : ℕ) :
    List.range' s m ++ List.range' (s + m) k = List.range' s (m + k) := by
  have h := List.range'_append s m k 1
  rw [Nat.one_mul] at h
  rw [h, Nat.add_comm k m]

/-- Inner batch loop of do_train with no NaN loss: it walks the remaining
batches, appending the per-step events, and stops exactly on reaching the
step target. -/
theorem innerLoop_no_nan (cfg : TrainConfig) (lossOf : ℕ → RVal)
    (hnan : ∀ s, lossOf s ≠ none) :
    ∀ (b g : ℕ) (evs : List TrainEvent), g < cfg.numSteps →
      innerLoop cfg lossOf b g evs =
        if g + b < cfg.numSteps then
          (g + b, evs ++ (List.range' (g + 1) b).flatMap (stepEvents cfg), false)
        else
          (cfg.numSteps,
            evs ++ (List.range' (g + 1) (cfg.numSteps - g)).flatMap (stepEvents cfg), true) := by
  intro b
  induction b with
  | zero =>
    intro g evs hg
    rw [if_pos (by omega)]
    simp [innerLoop]
  | succ b ih =>
    intro g evs hg
    cases hl : lossOf (g + 1) with
    | none => exact absurd hl (hnan (g + 1))
    | some v =>
      unfold innerLoop
      simp only [hl]
      by_cases hend : g + 1 = cfg.numSteps
      · rw [if_pos hend, if_neg (by omega)]
        have h1 : cfg.numSteps - g = 1 := by omega
        rw [h1]
        have h2 : List.range' (g + 1) 1 = [g + 1] := rfl
        rw [h2]
        simp [hend]
      · rw [if_neg hend]
        rw [ih (g + 1) (evs ++ stepEvents cfg (g + 1)) (by omega)]
        by_cases hlt : g + 1 + b < cfg.numSteps
        · rw [if_pos hlt, if_pos (by omega)]
          rw [List.range'_succ, List.flatMap_cons, List.append_assoc]
          have harith : g + 1 + b = g + (b + 1) := by omega
          rw [harith]
        · rw [if_neg hlt, if_neg (by omega)]
          have h1 : cfg.numSteps - g = (cfg.numSteps - (g + 1)) + 1 := by omega
          rw [h1, List.range'_succ, List.flatMap_cons, List.append_assoc]

/-- Outer epoch loop of do_train with no NaN loss and a nonempty dataloader:
after e epochs from step g either the target was reached, emitting the
events of every remaining step, or e * numBatches further steps ran. -/
theorem outerLoop_no_nan (cfg : TrainConfig) (lossOf : ℕ → RVal)
    (hnan : ∀ s, lossOf s ≠ none) :
    ∀ (e g : ℕ) (evs : List TrainEvent), g < cfg.numSteps →
      outerLoop cfg lossOf e g evs =
        if cfg.numSteps ≤ g + e * cfg.numBatches then
          (cfg.numSteps,
            evs ++ (List.range' (g + 1) (cfg.numSteps - g)).flatMap (stepEvents cfg))
        else
          (g + e * cfg.numBatches,
            evs ++ (List.range' (g + 1) (e * cfg.numBatches)).flatMap (stepEvents cfg)) := by
  intro e
  induction e with
  | zero =>
    intro g evs hg
    rw [if_neg (by omega)]
    simp [outerLoop]
  | succ e ih =>
    intro g evs hg
    unfold outerLoop
    rw [innerLoop_no_nan cfg lossOf hnan cfg.numBatches g evs hg]
    by_cases hin : g + cfg.numBatches < cfg.numSteps
    · rw [if_pos hin]
      simp only
      rw [ih (g + cfg.numBatches) _ (by omega)]
      by_cases hout : cfg.numSteps ≤ g + cfg.numBatches + e * cfg.numBatches
      · rw [if_pos hout, if_pos (by rw [Nat.succ_mul]; omega)]
        rw [List.append_assoc, ← List.flatMap_append]
        have harr : g + cfg.numBatches + 1 = g + 1 + cfg.numBatches := by omega
        rw [harr, range'_append_one (g + 1) cfg.numBatches (cfg.numSteps - (g + cfg.numBatches))]
        have hlen : cfg.numBatches + (cfg.numSteps - (g + cfg.numBatches)) = cfg.numSteps - g := by
          omega
        rw [hlen]
      · rw [if_neg hout, if_neg (by rw [Nat.succ_mul]; omega)]
        rw [List.append_assoc, ← List.flatMap_append]
        have harr : g + cfg.numBatches + 1 = g + 1 + cfg.numBatches := by omega
        rw [harr, range'_append_one (g + 1) cfg.numBatches (e * cfg.numBatches)]
        have hlen : cfg.numBatches + e * cfg.numBatches = (e + 1) * cfg.numBatches := by
          rw [Nat.succ_mul]; omega
        rw [hlen]
        have hstep : g + cfg.numBatches + e * cfg.numBatches = g + (e + 1) * cfg.numBatches := by
          rw [Nat.succ_mul]; omega
        rw [hstep]
    · rw [if_neg hin]
      simp only
      rw [if_pos (by rw [Nat.succ_mul]; omega)]

/-- With no NaN loss, a nonempty dataloader and a positive step target,
do_train runs exactly the steps 1 .. numSteps and its trace is the ordered
concatenation of the per-step events. -/
theorem do_train_trace (cfg : TrainConfig) (lossOf : ℕ → RVal)
    (hnan : ∀ s, lossOf s ≠ none) (hB : 1 ≤ cfg.numBatches) (hN : 1 ≤ cfg.numSteps) :
    do_train cfg lossOf
      = (cfg.numSteps, (List.range' 1 cfg.numSteps).flatMap (stepEvents cfg)) := by
  unfold do_train
  rw [outerLoop_no_nan cfg lossOf hnan cfg.numSteps 0 [] (by omega)]
  rw [if_pos (by calc cfg.numSteps ≤ cfg.numSteps * cfg.numBatches :=
        Nat.le_mul_of_pos_right _ (by omega)
      _ = 0 + cfg.numSteps * cfg.numBatches := by omega)]
  simp

/-- countP distributes over flatMap as a sum of per-element counts. -/
theorem countP_flatMap (p : β → Bool) (f : α → List β) :
    ∀ l : List α, ((l.flatMap f).countP p : ℕ) = (l.map (fun a => (f a).countP p)).sum := by
  intro l
  induction l with
  | nil => rfl
  | cons x xs ih => simp [List.flatMap_cons, List.countP_append, ih]

/-- The events of one step hold exactly one optimizer step when the step is
on the accumulation cadence and none otherwise. -/
theorem stepEvents_countP_opt (cfg : TrainConfig) (g : ℕ) :
    (stepEvents cfg g).countP isOptimizerStep
      = if g % cfg.gradAccum = 0 then 1 else 0 := by
  unfold stepEvents
  by_cases h1 : g % cfg.gradAccum = 0 <;>
    by_cases h2 : g % cfg.logPeriod = 0 <;>
      by_cases h3 : g % cfg.savePeriod = 0 <;>
        cases hs : cfg.hasScheduler <;>
          simp [h1, h2, h3, hs, List.countP_append, List.countP_cons, isOptimizerStep]

/-- Sum of indicator values over a list counts the satisfying elements. -/
theorem sum_map_ite_eq_countP (P : ℕ → Prop) [DecidablePred P] :
    ∀ l : List ℕ, (l.map (fun g => if P g then 1 else 0)).sum
      = l.countP (fun g => decide (P g)) := by
  intro l
  induction l with
  | nil => rfl
  | cons x xs ih =>
    by_cases h : P x <;> simp [h, List.countP_cons, ih, Nat.add_comm]

/-- Membership of an optimizer-step event among the events of one step. -/
theorem optimizerStep_mem_stepEvents (cfg : TrainConfig) (s g : ℕ) :
    TrainEvent.optimizerStep g ∈ stepEvents cfg s ↔ s = g ∧ g % cfg.gradAccum = 0 := by
  unfold stepEvents
  by_cases h1 : s % cfg.gradAccum = 0 <;>
    by_cases h2 : s % cfg.logPeriod = 0 <;>
      by_cases h3 : s % cfg.savePeriod = 0 <;>
        cases hs : cfg.hasScheduler <;>
          simp [h1, h2, h3, hs] <;>
            try { constructor
                  · rintro rfl; exact ⟨rfl, h1⟩
                  · rintro ⟨rfl, _⟩; rfl }
  all_goals (rintro rfl; omega)

/-- Membership of a gradient-clip event among the events of one step. -/
theorem clipGrad_mem_stepEvents (cfg : TrainConfig) (s g : ℕ) :
    TrainEvent.clipGrad g ∈ stepEvents cfg s ↔ s = g ∧ g % cfg.gradAccum = 0 := by
  unfold stepEvents
  by_cases h1 : s % cfg.gradAccum = 0 <;>
    by_cases h2 : s % cfg.logPeriod = 0 <;>
      by_cases h3 : s % cfg.savePeriod = 0 <;>
        cases hs : cfg.hasScheduler <;>
          simp [h1, h2, h3, hs] <;>
            try { constructor
                  · rintro rfl; exact ⟨rfl, h1⟩
                  · rintro ⟨rfl, _⟩; rfl }
  all_goals (rintro rfl; omega)

/-- Membership of a zero-grad event among the events of one step. -/
theorem zeroGrad_mem_stepEvents (cfg : TrainConfig) (s g : ℕ) :
    TrainEvent.zeroGrad g ∈ stepEvents cfg s ↔ s = g ∧ g % cfg.gradAccum = 0 := by
  unfold stepEvents
  by_cases h1 : s % cfg.gradAccum = 0 <;>
    by_cases h2 : s % cfg.logPeriod = 0 <;>
      by_cases h3 : s % cfg.savePeriod = 0 <;>
        cases hs : cfg.hasScheduler <;>
          simp [h1, h2, h3, hs] <;>
            try { constructor
                  · rintro rfl; exact ⟨rfl, h1⟩
                  · rintro ⟨rfl, _⟩; rfl }
  all_goals (rintro rfl; omega)

/-- Membership of a scheduler-step event among the events of one step. -/
theorem schedulerStep_mem_stepEvents (cfg : TrainConfig) (s g : ℕ) :
    TrainEvent.schedulerStep g ∈ stepEvents cfg s
      ↔ s = g ∧ g % cfg.gradAccum = 0 ∧ cfg.hasScheduler = true := by
  unfold stepEvents
  by_cases h1 : s % cfg.gradAccum = 0 <;>
    by_cases h2 : s % cfg.logPeriod = 0 <;>
      by_cases h3 : s % cfg.savePeriod = 0 <;>
        cases hs : cfg.hasScheduler <;>
          simp [h1, h2, h3, hs] <;>
            try { constructor
                  · rintro rfl; exact ⟨rfl, h1⟩
                  · rintro ⟨rfl, _⟩; rfl }
  all_goals (rintro rfl h; omega)

/-- C7: in a do_train run with no NaN loss, a nonempty dataloader and a
positive step target, gradient clipping, the optimizer step, the scheduler
step (exactly when a scheduler is configured) and gradient zeroing happen
exactly at the global steps that are multiples of
gradient_accumulation_steps, and the number of optimizer steps equals the
number of such steps in 1 .. numSteps. -/
theorem do_train_accum_cadence (cfg : TrainConfig) (lossOf : ℕ → RVal)
    (hnan : ∀ s, lossOf s ≠ none) (hB : 1 ≤ cfg.numBatches) (hN : 1 ≤ cfg.numSteps) :
    ((do_train cfg lossOf).2.countP isOptimizerStep
        = (List.range' 1 cfg.numSteps).countP (fun g => g % cfg.gradAccum = 0))
      ∧ ∀ g : ℕ,
          (TrainEvent.clipGrad g ∈ (do_train cfg lossOf).2
              ↔ 1 ≤ g ∧ g ≤ cfg.numSteps ∧ g % cfg.gradAccum = 0)
          ∧ (TrainEvent.optimizerStep g ∈ (do_train cfg lossOf).2
              ↔ 1 ≤ g ∧ g ≤ cfg.numSteps ∧ g % cfg.gradAccum = 0)
          ∧ (TrainEvent.zeroGrad g ∈ (do_train cfg lossOf).2
              ↔ 1 ≤ g ∧ g ≤ cfg.numSteps ∧ g % cfg.gradAccum = 0)
          ∧ (TrainEvent.schedulerStep g ∈ (do_train cfg lossOf).2
              ↔ 1 ≤ g ∧ g ≤ cfg.numSteps ∧ g % cfg.gradAccum = 0
                  ∧ cfg.hasScheduler = true) := by
  have htrace := do_train_trace cfg lossOf hnan hB hN
  rw [htrace]
  constructor
  · rw [countP_flatMap]
    have hmap : (List.range' 1 cfg.numSteps).map
          (fun s => (stepEvents cfg s).countP isOptimizerStep)
        = (List.range' 1 cfg.numSteps).map
          (fun s => if s % cfg.gradAccum = 0 then 1 else 0) :=
      List.map_congr_left (fun s _ => stepEvents_countP_opt cfg s)
    rw [hmap, sum_map_ite_eq_countP (fun g => g % cfg.gradAccum = 0)]
  · intro g
    refine ⟨?_, ?_, ?_, ?_⟩
    · rw [List.mem_flatMap]
      constructor
      · rintro ⟨s, hs, hmem⟩
        obtain ⟨rfl, hacc⟩ := (clipGrad_mem_stepEvents cfg s g).mp hmem
        have := List.mem_range'_1.mp hs
        exact ⟨this.1, by omega, hacc⟩
      · rintro ⟨h1, h2, hacc⟩
        exact ⟨g, List.mem_range'_1.mpr ⟨h1, by omega⟩,
          (clipGrad_mem_stepEvents cfg g g).mpr ⟨rfl, hacc⟩⟩
    · rw [List.mem_flatMap]
      constructor
      · rintro ⟨s, hs, hmem⟩
        obtain ⟨rfl, hacc⟩ := (optimizerStep_mem_stepEvents cfg s g).mp hmem
        have := List.mem_range'_1.mp hs
        exact ⟨this.1, by omega, hacc⟩
      · rintro ⟨h1, h2, hacc⟩
        exact ⟨g, List.mem_range'_1.mpr ⟨h1, by omega⟩,
          (optimizerStep_mem_stepEvents cfg g g).mpr ⟨rfl, hacc⟩⟩
    · rw [List.mem_flatMap]
      constructor
      · rintro ⟨s, hs, hmem⟩
        obtain ⟨rfl, hacc⟩ := (zeroGrad_mem_stepEvents cfg s g).mp hmem
        have := List.mem_range'_1.mp hs
        exact ⟨this.1, by omega, hacc⟩
      · rintro ⟨h1, h2, hacc⟩
        exact ⟨g, List.mem_range'_1.mpr ⟨h1, by omega⟩,
          (zeroGrad_mem_stepEvents cfg g g).mpr ⟨rfl, hacc⟩⟩
    · rw [List.mem_flatMap]
      constructor
      · rintro ⟨s, hs, hmem⟩
        obtain ⟨rfl, hacc, hsch⟩ := (schedulerStep_mem_stepEvents cfg s g).mp hmem
        have := List.mem_range'_1.mp hs
        exact ⟨this.1, by omega, hacc, hsch⟩
      · rintro ⟨h1, h2, hacc, hsch⟩
        exact ⟨g, List.mem_range'_1.mpr ⟨h1, by omega⟩,
          (schedulerStep_mem_stepEvents cfg g g).mpr ⟨rfl, hacc, hsch⟩⟩

/-- Witness for C7: a 10-step run with gradient accumulation 2 performs
exactly 5 optimizer steps. -/
theorem do_train_accum_cadence_witness :
    (do_train (TrainConfig.mk 10 2 1000 1000 true 3) (fun _ => some 1)).2.countP
        isOptimizerStep = 5 := by
  have h := do_train_accum_cadence (TrainConfig.mk 10 2 1000 1000 true 3) (fun _ => some 1)
    (fun s => by simp) (by decide) (by decide)
  rw [h.1]
  decide

/-- C1: evaluation of the source at the failing input.  The loss is NaN at
global step 3 of a 100-step run with five batches per epoch; the NaN break
ends only the current epoch because the stop_training flag set at model.py
line 207 is never read afterwards, so the next epoch processes step 4 and
the run continues to step 100 instead of halting at step 3. -/
theorem do_train_nan_does_not_halt :
    (TrainEvent.nanAbort 3
        ∈ (do_train (TrainConfig.mk 100 1 1000 1000 false 5)
            (fun g => if g = 3 then none else some 1)).2)
      ∧ (TrainEvent.processBatch 4
          ∈ (do_train (TrainConfig.mk 100 1 1000 1000 false 5)
              (fun g => if g = 3 then none else some 1)).2)
      ∧ (do_train (TrainConfig.mk 100 1 1000 1000 false 5)
          (fun g => if g = 3 then none else some 1)).1 = 100 := by
  refine ⟨by decide, by decide, by decide⟩

end MetaICL
